import Mathlib

/-!
Shallow embedding of the testbed telemetry codec from
`include/net/sch_testbed.h`: the minifloat quantization codec
(`int2fl` / `fl2int`), the drop-metrics accumulator, the IPv4 header
embedder with its incremental checksum update, and the protocol
dispatch shim.  Machine integers (`u8`/`u16`/`u32`) are modelled as
`Nat` with explicit `% 2 ^ w` truncation exactly where the C code
truncates; all intermediate C expressions stay within `u32` range at
the points where no truncation is written.
-/

namespace Testbed

/-- `#define DROPS_M 2` — drops mantissa bits. -/
def DROPS_M : Nat := 2

/-- `#define DROPS_E 3` — drops exponent bits. -/
def DROPS_E : Nat := 3

/-- `#define QDELAY_M 7` — queue-delay mantissa bits. -/
def QDELAY_M : Nat := 7

/-- `#define QDELAY_E 4` — queue-delay exponent bits. -/
def QDELAY_E : Nat := 4

/-- `INET_ECN_MASK` from `include/net/inet_ecn.h`: the two ECN bits of the
TOS byte. -/
def INET_ECN_MASK : Nat := 3

/-- `INET_ECN_NOT_ECT = 0` from `include/net/inet_ecn.h`. -/
def INET_ECN_NOT_ECT : Nat := 0

/-- Ethertype `ETH_P_IP = 0x0800`. -/
def ETH_P_IP : Nat := 0x0800

/-- Ethertype `ETH_P_IPV6 = 0x86DD`. -/
def ETH_P_IPV6 : Nat := 0x86DD

/-- Decode float value (`fl2int` in `sch_testbed.h`).
`fl` is masked to `m_b + e_b` bits; a masked value below `2 * 2^m_b` is
returned as is, otherwise the mantissa is extended with the implicit
leading one and shifted left by (exponent - 1). -/
def fl2int (fl m_b e_b : Nat) : Nat :=
  let m_max := 1 <<< m_b
  let fl2 := fl &&& ((m_max <<< e_b) - 1)
  if fl2 < m_max <<< 1 then
    fl2
  else
    ((fl2 &&& (m_max - 1)) + m_max) <<< ((fl2 >>> m_b) - 1)

/-- The largest value representable with `m_b` mantissa bits and `e_b`
exponent bits: the C expression
`((max_m << 1) + 1) << (max_e - 1)` from `int2fl`. -/
def max_fl (m_b e_b : Nat) : Nat :=
  ((((1 <<< m_b) - 1) <<< 1) + 1) <<< (((1 <<< e_b) - 1) - 1)

/-- Encode integer value as float value (`int2fl` in `sch_testbed.h`),
returning the codeword together with the remainder `*r`.
`(sizeof(u32) * 8) - __builtin_clz(val) - 1` is the index of the highest
set bit of `val`, i.e. `Nat.log2 val` (the branch guarantees `val ≠ 0`). -/
def int2fl (val m_b e_b : Nat) : Nat × Nat :=
  if val < 1 <<< (m_b + 1) then
    /- possibly only first exponent included, no encoding needed -/
    (val, 0)
  else if max_fl m_b e_b ≤ val then
    /- avoid overflow -/
    ((1 <<< (m_b + e_b)) - 1, val - max_fl m_b e_b)
  else
    let len := Nat.log2 val
    let exponent := len - m_b
    let mantissa := (val >>> exponent) &&& ((1 <<< m_b) - 1)
    (((exponent + 1) <<< m_b) ||| mantissa, val &&& ((1 <<< exponent) - 1))

/-- `struct testbed_metrics`: the two 16-bit drop counters. -/
structure testbed_metrics where
  drops_ecn : Nat
  drops_nonecn : Nat
  deriving Repr, DecidableEq

/-- `testbed_metrics_init`. -/
def testbed_metrics_init : testbed_metrics :=
  { drops_ecn := 0, drops_nonecn := 0 }

/-- `testbed_inc_drop_count`: increment the counter matching the packet's
ECN codepoint; the counters are `u16`, so the increment wraps mod `2^16`. -/
def testbed_inc_drop_count (t : testbed_metrics) (ect : Nat) : testbed_metrics :=
  if ect = INET_ECN_NOT_ECT then
    { t with drops_nonecn := (t.drops_nonecn + 1) % 2 ^ 16 }
  else
    { t with drops_ecn := (t.drops_ecn + 1) % 2 ^ 16 }

/-- `testbed_write_drops`: encode the counter selected by the ECN bits of
`tos` with the (DROPS_M, DROPS_E) codec, store the remainder back into the
counter (cast to `u16`), and return the codeword. -/
def testbed_write_drops (t : testbed_metrics) (tos : Nat) : Nat × testbed_metrics :=
  if tos &&& INET_ECN_MASK ≠ 0 then
    let dr := int2fl t.drops_ecn DROPS_M DROPS_E
    (dr.1, { t with drops_ecn := dr.2 % 2 ^ 16 })
  else
    let dr := int2fl t.drops_nonecn DROPS_M DROPS_E
    (dr.1, { t with drops_nonecn := dr.2 % 2 ^ 16 })

/-- `struct iphdr` (no options, `ihl = 5`): the fields of the 20-byte IPv4
header, each field a `Nat` standing for its host-order value. -/
structure iphdr where
  version_ihl : Nat
  tos : Nat
  tot_len : Nat
  id : Nat
  frag_off : Nat
  ttl : Nat
  protocol : Nat
  check : Nat
  saddr : Nat
  daddr : Nat
  deriving Repr, DecidableEq

/-- `testbed_add_metrics_ipv4`: write the combined qdelay/drops word into
the identification field and incrementally adjust the header checksum.
`check` is a `u32`; the subtraction `check -= id` is `u32` wraparound,
modelled as `(check + 2^32 - id) % 2^32` (the new `id` is a `u16`). -/
def testbed_add_metrics_ipv4 (h : iphdr) (t : testbed_metrics) (qdelay : Nat) :
    iphdr × testbed_metrics :=
  let check0 := h.check + h.id
  let check1 := if (check0 + 1) >>> 16 ≠ 0 then (check0 + 1) &&& 0xffff else check0
  let dt := testbed_write_drops t h.tos
  let drops := dt.1 % 2 ^ 16
  let id := (qdelay ||| (drops <<< 11)) % 2 ^ 16
  let check2 := (check1 + 2 ^ 32 - id) % 2 ^ 32
  let check3 := (check2 + (check2 >>> 16)) % 2 ^ 32
  ({ h with id := id, check := check3 % 2 ^ 16 }, dt.2)

/-- Modelled from the spec: the packet representation consumed by the
dispatch shim.  `sk_buff`, `skb_protocol`, `skb_network_offset`,
`pskb_may_pull` and `skb_try_make_writable` are kernel interfaces not part
of this header; per the spec the shim only needs the packet's
network-layer protocol, the network offset, and whether the header bytes
can be pulled and made writable, so those outcomes are carried as fields.
`ipv4` holds the packet's IPv4 header bytes (meaningful when the protocol
is `ETH_P_IP`). -/
structure sk_buff where
  protocol : Nat
  network_offset : Nat
  may_pull : Nat → Bool
  make_writable_fails : Nat → Bool
  ipv4 : iphdr

/-- `testbed_add_metrics`: quantize the queue delay with the
(QDELAY_M, QDELAY_E) codec (`u16` cast), then dispatch on the packet's
protocol; IPv4 embeds via `testbed_add_metrics_ipv4` when the header bytes
can be pulled and made writable, IPv6 and other protocols fall through
without touching the packet. -/
def testbed_add_metrics (skb : sk_buff) (t : testbed_metrics) (qdelay_us : Nat) :
    sk_buff × testbed_metrics :=
  let wlen := skb.network_offset
  let qdelay := (int2fl qdelay_us QDELAY_M QDELAY_E).1 % 2 ^ 16
  if skb.protocol = ETH_P_IP then
    let wlen4 := wlen + 20
    if ¬ skb.may_pull wlen4 ∨ skb.make_writable_fails wlen4 then
      (skb, t)
    else
      let ht := testbed_add_metrics_ipv4 skb.ipv4 t qdelay
      ({ skb with ipv4 := ht.1 }, ht.2)
  else if skb.protocol = ETH_P_IPV6 then
    (skb, t)
  else
    (skb, t)

/-- The ten 16-bit words of the 20-byte IPv4 header, in wire order. -/
def headerWords (h : iphdr) : List Nat :=
  [h.version_ihl * 2 ^ 8 + h.tos, h.tot_len, h.id, h.frag_off,
   h.ttl * 2 ^ 8 + h.protocol, h.check,
   h.saddr / 2 ^ 16, h.saddr % 2 ^ 16, h.daddr / 2 ^ 16, h.daddr % 2 ^ 16]

/-- Fold a sum into 16 bits with end-around carry, the standard
one's-complement fold used when recomputing an internet checksum from
scratch. -/
def csum_fold (x : Nat) : Nat :=
  if x < 2 ^ 16 then x else csum_fold (x / 2 ^ 16 + x % 2 ^ 16)
termination_by x
decreasing_by
  simp only [not_lt] at *
  omega

/-- Recompute the IPv4 header checksum from scratch over a list of 16-bit
words: the one's complement of the folded one's-complement sum.  A header
is checksum-valid iff this recomputation (which includes the stored
checksum field) yields zero. -/
def ipv4_csum (ws : List Nat) : Nat :=
  0xffff - csum_fold ws.sum

/-- A well-formed 20-byte IPv4 header: version 4, ihl 5, and every field
within its machine-width range. -/
def wellFormed (h : iphdr) : Prop :=
  h.version_ihl = 0x45 ∧ h.tos < 2 ^ 8 ∧ h.tot_len < 2 ^ 16 ∧ h.id < 2 ^ 16 ∧
  h.frag_off < 2 ^ 16 ∧ h.ttl < 2 ^ 8 ∧ h.protocol < 2 ^ 8 ∧ h.check < 2 ^ 16 ∧
  h.saddr < 2 ^ 32 ∧ h.daddr < 2 ^ 32

instance (h : iphdr) : Decidable (wellFormed h) := by
  unfold wellFormed
  infer_instance

/-! ### Codec lemmas -/

/-- `max_fl` in closed arithmetic form. -/
lemma max_fl_eq (m e : Nat) : max_fl m e = (2 ^ (m + 1) - 1) * 2 ^ ((2 ^ e - 1) - 1) := by
  have hm : 1 ≤ 2 ^ m := Nat.one_le_two_pow
  have h2 : (2 ^ m - 1) * 2 ^ 1 + 1 = 2 ^ (m + 1) - 1 := by
    have hs : 2 ^ (m + 1) = 2 ^ m * 2 := pow_succ 2 m
    have ho : (2 : Nat) ^ 1 = 2 := pow_one 2
    omega
  simp only [max_fl, Nat.shiftLeft_eq, one_mul]
  rw [h2]

lemma two_le_two_pow {e : Nat} (he : 1 ≤ e) : 2 ≤ 2 ^ e := by
  calc 2 = 2 ^ 1 := by norm_num
    _ ≤ 2 ^ e := Nat.pow_le_pow_right (by omega) he

lemma max_fl_lt_pow (m e : Nat) (he : 1 ≤ e) : max_fl m e < 2 ^ (m + (2 ^ e - 1)) := by
  have h1 : 1 ≤ 2 ^ e - 1 := by
    have := two_le_two_pow he
    omega
  rw [max_fl_eq]
  calc (2 ^ (m + 1) - 1) * 2 ^ ((2 ^ e - 1) - 1)
      < 2 ^ (m + 1) * 2 ^ ((2 ^ e - 1) - 1) := by
        have hpos : 0 < 2 ^ ((2 ^ e - 1) - 1) := Nat.pos_pow_of_pos _ (by omega)
        have hone : 1 ≤ 2 ^ (m + 1) := Nat.one_le_two_pow
        exact (Nat.mul_lt_mul_right hpos).mpr (by omega)
    _ = 2 ^ (m + 1 + ((2 ^ e - 1) - 1)) := by rw [← pow_add]
    _ = 2 ^ (m + (2 ^ e - 1)) := by congr 1; omega

/-- Direct range: a value below `2^(m_b+1)` is returned unchanged with
remainder 0. -/
lemma int2fl_direct (m e v : Nat) (hv : v < 2 ^ (m + 1)) : int2fl v m e = (v, 0) := by
  unfold int2fl
  rw [if_pos]
  simpa [Nat.shiftLeft_eq] using hv

/-- Saturation: a value at or above `max_fl` yields the all-ones codeword
and remainder `v - max_fl`. -/
lemma int2fl_sat (m e v : Nat) (he : 1 ≤ e) (hv : max_fl m e ≤ v) :
    int2fl v m e = (2 ^ (m + e) - 1, v - max_fl m e) := by
  unfold int2fl
  by_cases hd : v < 1 <<< (m + 1)
  · rw [if_pos hd]
    rw [Nat.shiftLeft_eq, one_mul] at hd
    have hfl := max_fl_eq m e
    have h1 : 2 ≤ 2 ^ (m + 1) := two_le_two_pow (by omega)
    have hme : 2 ^ e - 1 = 1 := by
      by_contra hne
      have h2 : 2 ≤ 2 ^ e := two_le_two_pow he
      have h3 : 2 ≤ 2 ^ e - 1 := by omega
      have h4 : 2 ≤ 2 ^ ((2 ^ e - 1) - 1) := by
        calc 2 = 2 ^ 1 := by norm_num
          _ ≤ 2 ^ ((2 ^ e - 1) - 1) := Nat.pow_le_pow_right (by omega) (by omega)
      have h5 : 2 * (2 ^ (m + 1) - 1) ≤ max_fl m e := by
        rw [hfl]
        calc 2 * (2 ^ (m + 1) - 1) = (2 ^ (m + 1) - 1) * 2 := by ring
          _ ≤ (2 ^ (m + 1) - 1) * 2 ^ ((2 ^ e - 1) - 1) :=
            Nat.mul_le_mul_left _ h4
      omega
    have hfl1 : max_fl m e = 2 ^ (m + 1) - 1 := by
      rw [hfl, hme]
      norm_num
    have hveq : v = 2 ^ (m + 1) - 1 := by omega
    have hee : e = 1 := by
      by_contra hne
      have h2 : 2 ≤ e := by omega
      have : 4 ≤ 2 ^ e := by
        calc 4 = 2 ^ 2 := by norm_num
          _ ≤ 2 ^ e := Nat.pow_le_pow_right (by omega) h2
      omega
    subst hee
    simp [hveq, hfl1, pow_succ]
  · rw [if_neg hd, if_pos hv]
    simp [Nat.shiftLeft_eq]

/-- The normal encoding branch, with the codeword and remainder written in
div/mod arithmetic. -/
lemma int2fl_normal (m e v : Nat) (h1 : 2 ^ (m + 1) ≤ v) (h2 : v < max_fl m e) :
    int2fl v m e =
      ((Nat.log2 v - m + 1) * 2 ^ m + (v / 2 ^ (Nat.log2 v - m)) % 2 ^ m,
        v % 2 ^ (Nat.log2 v - m)) := by
  have hv0 : v ≠ 0 := by
    have : 0 < 2 ^ (m + 1) := Nat.pos_pow_of_pos _ (by omega)
    omega
  unfold int2fl
  rw [if_neg (by rw [Nat.shiftLeft_eq, one_mul]; omega), if_neg (by omega)]
  have hman : (v >>> (Nat.log2 v - m)) &&& (1 <<< m - 1) =
      (v / 2 ^ (Nat.log2 v - m)) % 2 ^ m := by
    rw [Nat.shiftLeft_eq, one_mul, Nat.and_pow_two_sub_one_eq_mod,
      Nat.shiftRight_eq_div_pow]
  have hrem : v &&& (1 <<< (Nat.log2 v - m) - 1) = v % 2 ^ (Nat.log2 v - m) := by
    rw [Nat.shiftLeft_eq, one_mul, Nat.and_pow_two_sub_one_eq_mod]
  have hor : ((Nat.log2 v - m + 1) <<< m) ||| ((v / 2 ^ (Nat.log2 v - m)) % 2 ^ m)
      = (Nat.log2 v - m + 1) * 2 ^ m + (v / 2 ^ (Nat.log2 v - m)) % 2 ^ m := by
    have hlt : (v / 2 ^ (Nat.log2 v - m)) % 2 ^ m < 2 ^ m :=
      Nat.mod_lt _ (Nat.pos_pow_of_pos _ (by omega))
    rw [Nat.shiftLeft_eq, mul_comm (Nat.log2 v - m + 1) (2 ^ m),
      ← Nat.mul_add_lt_is_or hlt, mul_comm]
  simp only [hman, hrem, hor]

/-- `fl2int` rewritten into div/mod arithmetic. -/
lemma fl2int_eq (fl m e : Nat) :
    fl2int fl m e =
      if fl % 2 ^ (m + e) < 2 ^ (m + 1) then fl % 2 ^ (m + e)
      else ((fl % 2 ^ (m + e)) % 2 ^ m + 2 ^ m) * 2 ^ ((fl % 2 ^ (m + e)) / 2 ^ m - 1) := by
  simp only [fl2int, Nat.shiftLeft_eq, one_mul, Nat.shiftRight_eq_div_pow, ← pow_add,
    Nat.and_pow_two_sub_one_eq_mod]

/-- Bit-twiddling fact: `(B * A - 1) % A = A - 1` and `(B * A - 1) / A = B - 1`. -/
lemma pred_mul_mod_div (A B : Nat) (hA : 1 ≤ A) (hB : 1 ≤ B) :
    (B * A - 1) % A = A - 1 ∧ (B * A - 1) / A = B - 1 := by
  have hm : A * (B - 1) = A * B - A := by
    rw [← Nat.pred_eq_sub_one, Nat.mul_pred]
  have hAB : A ≤ A * B := Nat.le_mul_of_pos_right _ (by omega)
  have h : B * A - 1 = A * (B - 1) + (A - 1) := by
    rw [hm, mul_comm B A]
    omega
  rw [h]
  constructor
  · rw [Nat.mul_add_mod]
    exact Nat.mod_eq_of_lt (by omega)
  · rw [Nat.mul_add_div (by omega), Nat.div_eq_of_lt (by omega)]
    omega

/-- Decoding the all-ones codeword yields exactly `max_fl`. -/
lemma fl2int_all_ones (m e : Nat) (he : 1 ≤ e) :
    fl2int (2 ^ (m + e) - 1) m e = max_fl m e := by
  rw [fl2int_eq]
  have h1 : 1 ≤ 2 ^ (m + e) := Nat.one_le_two_pow
  have hm1 : 1 ≤ 2 ^ m := Nat.one_le_two_pow
  have hmod : (2 ^ (m + e) - 1) % 2 ^ (m + e) = 2 ^ (m + e) - 1 :=
    Nat.mod_eq_of_lt (by omega)
  rw [hmod]
  have hP : 2 ^ (m + e) = 2 ^ e * 2 ^ m := by rw [pow_add, mul_comm]
  have hpm := pred_mul_mod_div (2 ^ m) (2 ^ e) hm1 Nat.one_le_two_pow
  by_cases h2 : e = 1
  · subst h2
    have hs : 2 ^ (m + 1) = 2 ^ m * 2 := pow_succ 2 m
    rw [if_pos (by omega)]
    rw [max_fl_eq]
    norm_num
  · have he2 : 2 ≤ e := by omega
    have hbig : 2 ^ (m + 2) ≤ 2 ^ (m + e) := Nat.pow_le_pow_right (by omega) (by omega)
    have hstep : 2 ^ (m + 2) = 2 * 2 ^ (m + 1) := by rw [pow_succ, mul_comm]
    have hs1 : 2 ≤ 2 ^ (m + 1) := two_le_two_pow (by omega)
    rw [if_neg (by omega)]
    rw [hP, hpm.1, hpm.2, max_fl_eq]
    have hs : 2 ^ (m + 1) = 2 ^ m * 2 := pow_succ 2 m
    have hc : 2 ^ m - 1 + 2 ^ m = 2 ^ (m + 1) - 1 := by omega
    rw [hc]

/-- Collected bounds for the normal encoding branch: the exponent is at
least 1, fits the budget, and the shifted value has exactly `m_b + 1`
bits. -/
lemma log2_sub_facts (m e v : Nat) (he : 1 ≤ e) (hd : 2 ^ (m + 1) ≤ v)
    (hn : v < max_fl m e) :
    1 ≤ Nat.log2 v - m ∧ Nat.log2 v - m + 1 ≤ 2 ^ e - 1 ∧
    2 ^ m ≤ v / 2 ^ (Nat.log2 v - m) ∧ v / 2 ^ (Nat.log2 v - m) < 2 ^ (m + 1) := by
  have h0 : 0 < 2 ^ (m + 1) := Nat.pos_pow_of_pos _ (by omega)
  have hv0 : v ≠ 0 := by omega
  have hL1 : m + 1 ≤ Nat.log2 v := (Nat.le_log2 hv0).mpr hd
  have hL2 : Nat.log2 v < m + (2 ^ e - 1) :=
    (Nat.log2_lt hv0).mpr (hn.trans (max_fl_lt_pow m e he))
  have hlow : 2 ^ Nat.log2 v ≤ v := (Nat.le_log2 hv0).mp (le_refl _)
  have hhigh : v < 2 ^ (Nat.log2 v + 1) := (Nat.log2_lt hv0).mp (Nat.lt_succ_self _)
  have h2E : 0 < 2 ^ (Nat.log2 v - m) := Nat.pos_pow_of_pos _ (by omega)
  refine ⟨by omega, by omega, ?_, ?_⟩
  · rw [Nat.le_div_iff_mul_le h2E, ← pow_add]
    calc 2 ^ (m + (Nat.log2 v - m)) = 2 ^ Nat.log2 v := by congr 1; omega
      _ ≤ v := hlow
  · rw [Nat.div_lt_iff_lt_mul h2E, ← pow_add]
    calc v < 2 ^ (Nat.log2 v + 1) := hhigh
      _ = 2 ^ (m + 1 + (Nat.log2 v - m)) := by congr 1; omega

/-- The normal-branch codeword stays below `2^(m_b+e_b)`. -/
lemma normal_code_lt (m e E man : Nat) (hE : E + 1 ≤ 2 ^ e - 1) (hman : man < 2 ^ m) :
    (E + 1) * 2 ^ m + man < 2 ^ (m + e) := by
  have h1 : (E + 1) * 2 ^ m ≤ (2 ^ e - 1) * 2 ^ m := Nat.mul_le_mul_right _ hE
  have h2 : (2 ^ e - 1) * 2 ^ m = 2 ^ e * 2 ^ m - 2 ^ m := by rw [Nat.sub_mul, one_mul]
  have h3 : 2 ^ (m + e) = 2 ^ e * 2 ^ m := by rw [pow_add, mul_comm]
  have h4 : 1 ≤ 2 ^ m := Nat.one_le_two_pow
  have h5 : 2 ^ m ≤ 2 ^ e * 2 ^ m :=
    Nat.le_mul_of_pos_left _ (Nat.pos_pow_of_pos _ (by omega))
  omega

/-- The exact reconstruction identity: decoding the codeword and adding
back the remainder recovers the encoded value, for every input value
(saturating inputs included). -/
lemma int2fl_fl2int_add (m e v : Nat) (he : 1 ≤ e) :
    fl2int (int2fl v m e).1 m e + (int2fl v m e).2 = v := by
  rcases lt_or_le v (2 ^ (m + 1)) with hd | hd
  · rw [int2fl_direct m e v hd]
    simp only [add_zero]
    rw [fl2int_eq]
    have hmod : v % 2 ^ (m + e) = v :=
      Nat.mod_eq_of_lt (hd.trans_le (Nat.pow_le_pow_right (by omega) (by omega)))
    rw [hmod, if_pos hd]
  · rcases lt_or_le v (max_fl m e) with hn | hs
    · obtain ⟨hE1, hE2, hdl, hdh⟩ := log2_sub_facts m e v he hd hn
      rw [int2fl_normal m e v hd hn]
      simp only
      have h2E : 0 < 2 ^ (Nat.log2 v - m) := Nat.pos_pow_of_pos _ (by omega)
      have h2m : 0 < 2 ^ m := Nat.pos_pow_of_pos _ (by omega)
      have hs2 : 2 ^ (m + 1) = 2 ^ m * 2 := pow_succ 2 m
      have hman : (v / 2 ^ (Nat.log2 v - m)) % 2 ^ m = v / 2 ^ (Nat.log2 v - m) - 2 ^ m := by
        rw [Nat.mod_eq_sub_mod hdl]
        exact Nat.mod_eq_of_lt (by omega)
      have hmanlt : (v / 2 ^ (Nat.log2 v - m)) % 2 ^ m < 2 ^ m := Nat.mod_lt _ h2m
      rw [fl2int_eq]
      have hF : (Nat.log2 v - m + 1) * 2 ^ m + (v / 2 ^ (Nat.log2 v - m)) % 2 ^ m
          < 2 ^ (m + e) := normal_code_lt m e _ _ hE2 hmanlt
      rw [Nat.mod_eq_of_lt hF]
      have hge : 2 ^ (m + 1) ≤ (Nat.log2 v - m + 1) * 2 ^ m
          + (v / 2 ^ (Nat.log2 v - m)) % 2 ^ m := by
        have : 2 * 2 ^ m ≤ (Nat.log2 v - m + 1) * 2 ^ m :=
          Nat.mul_le_mul_right _ (by omega)
        omega
      rw [if_neg (by omega)]
      rw [mul_comm (Nat.log2 v - m + 1) (2 ^ m), Nat.mul_add_mod, Nat.mul_add_div h2m,
        Nat.mod_eq_of_lt hmanlt, Nat.div_eq_of_lt hmanlt]
      have hdm := Nat.div_add_mod v (2 ^ (Nat.log2 v - m))
      have hq : (v / 2 ^ (Nat.log2 v - m)) % 2 ^ m + 2 ^ m = v / 2 ^ (Nat.log2 v - m) := by
        omega
      have hexp : Nat.log2 v - m + 1 + 0 - 1 = Nat.log2 v - m := by omega
      rw [hexp, hq, mul_comm]
      omega
    · rw [int2fl_sat m e v he hs]
      simp only
      rw [fl2int_all_ones m e he]
      omega

/-- The codeword produced by `int2fl` always fits in `m_b + e_b` bits. -/
lemma int2fl_fst_lt (m e v : Nat) (he : 1 ≤ e) : (int2fl v m e).1 < 2 ^ (m + e) := by
  rcases lt_or_le v (2 ^ (m + 1)) with hd | hd
  · rw [int2fl_direct m e v hd]
    exact hd.trans_le (Nat.pow_le_pow_right (by omega) (by omega))
  · rcases lt_or_le v (max_fl m e) with hn | hs
    · obtain ⟨hE1, hE2, hdl, hdh⟩ := log2_sub_facts m e v he hd hn
      rw [int2fl_normal m e v hd hn]
      have h2m : 0 < 2 ^ m := Nat.pos_pow_of_pos _ (by omega)
      exact normal_code_lt m e _ _ hE2 (Nat.mod_lt _ h2m)
    · rw [int2fl_sat m e v he hs]
      have : 1 ≤ 2 ^ (m + e) := Nat.one_le_two_pow
      simp only
      omega

/-! ### One's-complement fold lemmas -/

lemma csum_fold_props (x : Nat) :
    csum_fold x < 2 ^ 16 ∧ csum_fold x % 65535 = x % 65535 ∧ (0 < x → 0 < csum_fold x) := by
  induction x using Nat.strong_induction_on with
  | _ x ih =>
    rw [csum_fold]
    split
    · refine ⟨by omega, rfl, fun h => h⟩
    · rename_i hbig
      have hlt : x / 2 ^ 16 + x % 2 ^ 16 < x := by omega
      obtain ⟨b1, b2, b3⟩ := ih _ hlt
      refine ⟨b1, ?_, ?_⟩
      · rw [b2]
        omega
      · intro
        exact b3 (by omega)

lemma csum_fold_of_lt {x : Nat} (hx : x < 2 ^ 16) : csum_fold x = x := by
  rw [csum_fold, if_pos hx]

lemma csum_fold_lt (x : Nat) : csum_fold x < 2 ^ 16 := (csum_fold_props x).1

lemma csum_fold_mod (x : Nat) : csum_fold x % 65535 = x % 65535 := (csum_fold_props x).2.1

/-- A positive multiple of `0xffff` folds to `0xffff` (the one's-complement
negative zero). -/
lemma csum_fold_eq_ffff (x : Nat) (h0 : 0 < x) (hm : x % 65535 = 0) :
    csum_fold x = 65535 := by
  have h1 := csum_fold_lt x
  have h2 := csum_fold_mod x
  have h3 := (csum_fold_props x).2.2 h0
  omega

/-- Recomputing the checksum yields zero exactly when the folded sum is
the all-ones word. -/
lemma ipv4_csum_zero_iff (ws : List Nat) : ipv4_csum ws = 0 ↔ csum_fold ws.sum = 65535 := by
  unfold ipv4_csum
  have h1 := csum_fold_lt ws.sum
  omega

/-! ### Header embedding lemmas -/

lemma and_ffff (x : Nat) : x &&& 0xffff = x % 2 ^ 16 := by
  have h : (0xffff : Nat) = 2 ^ 16 - 1 := by norm_num
  rw [h, Nat.and_pow_two_sub_one_eq_mod]

/-- The embedder only rewrites the identification and checksum fields. -/
lemma add_metrics_ipv4_frame (h : iphdr) (t : testbed_metrics) (q : Nat) :
    (testbed_add_metrics_ipv4 h t q).1.version_ihl = h.version_ihl ∧
    (testbed_add_metrics_ipv4 h t q).1.tos = h.tos ∧
    (testbed_add_metrics_ipv4 h t q).1.tot_len = h.tot_len ∧
    (testbed_add_metrics_ipv4 h t q).1.frag_off = h.frag_off ∧
    (testbed_add_metrics_ipv4 h t q).1.ttl = h.ttl ∧
    (testbed_add_metrics_ipv4 h t q).1.protocol = h.protocol ∧
    (testbed_add_metrics_ipv4 h t q).1.saddr = h.saddr ∧
    (testbed_add_metrics_ipv4 h t q).1.daddr = h.daddr :=
  ⟨rfl, rfl, rfl, rfl, rfl, rfl, rfl, rfl⟩

/-- The written identification field value. -/
lemma add_metrics_ipv4_id (h : iphdr) (t : testbed_metrics) (q : Nat) :
    (testbed_add_metrics_ipv4 h t q).1.id
      = (q ||| (((testbed_write_drops t h.tos).1 % 2 ^ 16) <<< 11)) % 2 ^ 16 :=
  rfl

/-- The algebra of the incremental update in isolation: folding the old
checksum with the old identification word, subtracting the new
identification word with end-around borrow, and truncating to 16 bits is
congruent mod `0xffff` to `old_check + old_id - new_id`. -/
lemma incr_check_mod (c i d : Nat) (hc : c < 2 ^ 16) (hi : i < 2 ^ 16) (hd : d < 2 ^ 16) :
    ((((if (c + i + 1) / 2 ^ 16 ≠ 0 then (c + i + 1) % 2 ^ 16 else c + i) + 2 ^ 32 - d) % 2 ^ 32
      + ((if (c + i + 1) / 2 ^ 16 ≠ 0 then (c + i + 1) % 2 ^ 16 else c + i) + 2 ^ 32 - d) % 2 ^ 32 / 2 ^ 16)
        % 2 ^ 32 % 2 ^ 16 + d) % 65535
    = (c + i) % 65535 := by
  generalize hk : (if (c + i + 1) / 2 ^ 16 ≠ 0 then (c + i + 1) % 2 ^ 16 else c + i) = k1
  have hk1 : k1 ≤ 65535 ∧ k1 % 65535 = (c + i) % 65535 := by
    rw [← hk]
    split <;> omega
  obtain ⟨hk1a, hk1b⟩ := hk1
  generalize hg : k1 + 2 ^ 32 - d = u
  have hu : u + d = k1 + 2 ^ 32 := by omega
  rcases le_or_lt d k1 with hcase | hcase
  · have hu2 : u % 2 ^ 32 = k1 - d := by omega
    rw [hu2]
    have hz : (k1 - d) / 2 ^ 16 = 0 := by omega
    rw [hz]
    omega
  · have hu2 : u % 2 ^ 32 = u := by omega
    rw [hu2]
    have hdiv : u / 2 ^ 16 = 65535 := by omega
    rw [hdiv]
    have h3 : (u + 65535) % 2 ^ 32 = k1 + 65535 - d := by omega
    rw [h3]
    have h4 : (k1 + 65535 - d) % 2 ^ 16 = k1 + 65535 - d := by omega
    rw [h4]
    omega

/-- The incremental checksum update is congruent to removing the old
identification word and adding the new one, modulo `0xffff`, and the new
checksum and identification fields are 16-bit values. -/
lemma add_metrics_ipv4_check (h : iphdr) (t : testbed_metrics) (q : Nat)
    (hc : h.check < 2 ^ 16) (hi : h.id < 2 ^ 16) :
    (testbed_add_metrics_ipv4 h t q).1.check < 2 ^ 16 ∧
    (testbed_add_metrics_ipv4 h t q).1.id < 2 ^ 16 ∧
    ((testbed_add_metrics_ipv4 h t q).1.check + (testbed_add_metrics_ipv4 h t q).1.id) % 65535
      = (h.check + h.id) % 65535 := by
  simp only [testbed_add_metrics_ipv4, Nat.shiftRight_eq_div_pow, and_ffff]
  refine ⟨Nat.mod_lt _ (by norm_num), Nat.mod_lt _ (by norm_num), ?_⟩
  exact incr_check_mod h.check h.id _ hc hi (Nat.mod_lt _ (by norm_num))

/-- A concrete well-formed IPv4 header with a valid checksum, used as a
test vector. -/
def hdr0 : iphdr :=
  { version_ihl := 0x45, tos := 0, tot_len := 20, id := 0, frag_off := 0,
    ttl := 64, protocol := 6, check := 31461, saddr := 0, daddr := 0 }

/-! ### Claim theorems -/

/-- Claim C1: for every well-formed IPv4 header whose stored checksum is
valid (recomputing the checksum over the whole header yields zero), after
`testbed_add_metrics_ipv4` writes the new identification field and
incrementally adjusts the checksum field, recomputing the checksum over
the whole header from scratch again yields zero, for every accumulator
state and every 11-bit quantized delay value. -/
theorem add_metrics_ipv4_checksum_valid (h : iphdr) (t : testbed_metrics) (q : Nat)
    (hwf : wellFormed h) (hq : q < 2 ^ 11)
    (hvalid : ipv4_csum (headerWords h) = 0) :
    ipv4_csum (headerWords (testbed_add_metrics_ipv4 h t q).1) = 0 := by
  obtain ⟨hv45, htos, hlen, hid, hfrag, httl, hproto, hchk, hsa, hda⟩ := hwf
  obtain ⟨hc2, hi2, hmod⟩ := add_metrics_ipv4_check h t q hchk hid
  obtain ⟨f1, f2, f3, f4, f5, f6, f7, f8⟩ := add_metrics_ipv4_frame h t q
  rw [ipv4_csum_zero_iff] at hvalid ⊢
  have hmod_old : (headerWords h).sum % 65535 = 0 := by
    have hcf := csum_fold_mod (headerWords h).sum
    rw [hvalid] at hcf
    omega
  have hs_old : (headerWords h).sum = h.version_ihl * 2 ^ 8 + h.tos + h.tot_len + h.frag_off
      + (h.ttl * 2 ^ 8 + h.protocol)
      + (h.saddr / 2 ^ 16 + h.saddr % 2 ^ 16 + h.daddr / 2 ^ 16 + h.daddr % 2 ^ 16)
      + h.id + h.check := by
    simp [headerWords]
    ring
  have hs_new : (headerWords (testbed_add_metrics_ipv4 h t q).1).sum
      = h.version_ihl * 2 ^ 8 + h.tos + h.tot_len + h.frag_off
      + (h.ttl * 2 ^ 8 + h.protocol)
      + (h.saddr / 2 ^ 16 + h.saddr % 2 ^ 16 + h.daddr / 2 ^ 16 + h.daddr % 2 ^ 16)
      + (testbed_add_metrics_ipv4 h t q).1.id + (testbed_add_metrics_ipv4 h t q).1.check := by
    simp [headerWords, f1, f2, f3, f4, f5, f6, f7, f8]
    ring
  apply csum_fold_eq_ffff
  · rw [hs_new]
    omega
  · rw [hs_new]
    rw [hs_old] at hmod_old
    omega

/-- Witness for C1 at a concrete header, accumulator and delay value. -/
theorem add_metrics_ipv4_checksum_valid_witness :
    wellFormed hdr0 ∧ (5 : Nat) < 2 ^ 11 ∧ ipv4_csum (headerWords hdr0) = 0 ∧
    ipv4_csum (headerWords (testbed_add_metrics_ipv4 hdr0 testbed_metrics_init 5).1) = 0 := by
  have hv : ipv4_csum (headerWords hdr0) = 0 := by
    have h1 : (headerWords hdr0).sum = 65535 := by norm_num [headerWords, hdr0]
    unfold ipv4_csum
    rw [h1, csum_fold_of_lt (by norm_num)]
  exact ⟨by decide, by norm_num, hv,
    add_metrics_ipv4_checksum_valid hdr0 testbed_metrics_init 5 (by decide) (by norm_num) hv⟩

/-- Claim C2: for every value within the representable range of a
(mantissa_bits, exponent_bits) pair — the pairs (2,3) and (7,4) used here
in particular — decoding the codeword produced by `int2fl` and adding the
reported remainder reconstructs the value exactly. -/
theorem int2fl_fl2int_exact_in_range (m e v : Nat) (he : 1 ≤ e) (hv : v ≤ max_fl m e) :
    fl2int (int2fl v m e).1 m e + (int2fl v m e).2 = v :=
  int2fl_fl2int_add m e v he

/-- Witness for C2 at the (2,3) codec and value 100. -/
theorem int2fl_fl2int_exact_in_range_witness :
    (1 ≤ 3 ∧ 100 ≤ max_fl 2 3) ∧
    fl2int (int2fl 100 2 3).1 2 3 + (int2fl 100 2 3).2 = 100 :=
  ⟨⟨by norm_num, by decide⟩, int2fl_fl2int_exact_in_range 2 3 100 (by norm_num) (by decide)⟩

/-- Claim C3: `int2fl` saturates instead of wrapping: for the (2,3) codec
every value at or above `max_fl 2 3 = 448` encodes to the maximum codeword
31 with remainder `v - 448`, and for any pair with at least one exponent
bit a value at or above `max_fl` encodes to codeword `(1 <<< (m+e)) - 1`
with remainder `v - max_fl`. -/
theorem int2fl_saturates :
    (∀ v, 448 ≤ v → int2fl v 2 3 = (31, v - 448)) ∧
    (∀ m e v, 1 ≤ e → max_fl m e ≤ v →
      int2fl v m e = ((1 <<< (m + e)) - 1, v - max_fl m e)) := by
  constructor
  · intro v hv
    have h448 : max_fl 2 3 = 448 := by decide
    rw [int2fl_sat 2 3 v (by norm_num) (by omega), h448]
    norm_num
  · intro m e v he hv
    rw [int2fl_sat m e v he hv, Nat.shiftLeft_eq, one_mul]

/-- Witness for C3 at value 500 of the (2,3) codec. -/
theorem int2fl_saturates_witness :
    448 ≤ 500 ∧ int2fl 500 2 3 = (31, 500 - 448) :=
  ⟨by norm_num, int2fl_saturates.1 500 (by norm_num)⟩

/-- `Nat.log2 100 = 6`, needed to evaluate the normal encoding branch. -/
lemma log2_100 : Nat.log2 100 = 6 := by
  have h1 : 6 ≤ Nat.log2 100 := (Nat.le_log2 (by norm_num)).mpr (by norm_num)
  have h2 : Nat.log2 100 < 7 := (Nat.log2_lt (by norm_num)).mpr (by norm_num)
  omega

/-- `int2fl 100 2 3 = (22, 4)`: codeword 22, remainder 4. -/
lemma int2fl_100 : int2fl 100 2 3 = (22, 4) := by
  rw [int2fl_normal 2 3 100 (by norm_num) (by decide), log2_100]
  norm_num

/-- Claim C4: `testbed_write_drops` replaces the selected counter with the
encode remainder and returns the codeword, so it is not idempotent:
starting with the selected counter at 100 (either selection), the first
call returns the (2,3) codeword 22 for 100 and leaves the residual 4 in
the counter; a second consecutive call returns codeword 4, computed from
the residual, not from 100. -/
theorem testbed_write_drops_not_idempotent :
    testbed_write_drops { drops_ecn := 0, drops_nonecn := 100 } 0
      = ((int2fl 100 DROPS_M DROPS_E).1, { drops_ecn := 0, drops_nonecn := (int2fl 100 DROPS_M DROPS_E).2 }) ∧
    testbed_write_drops { drops_ecn := 0, drops_nonecn := 100 } 0
      = (22, { drops_ecn := 0, drops_nonecn := 4 }) ∧
    testbed_write_drops { drops_ecn := 0, drops_nonecn := 4 } 0
      = (4, { drops_ecn := 0, drops_nonecn := 0 }) ∧
    (4 : Nat) ≠ 22 ∧
    testbed_write_drops { drops_ecn := 100, drops_nonecn := 0 } 1
      = (22, { drops_ecn := 4, drops_nonecn := 0 }) ∧
    testbed_write_drops { drops_ecn := 4, drops_nonecn := 0 } 1
      = (4, { drops_ecn := 0, drops_nonecn := 0 }) := by
  have hw : testbed_write_drops { drops_ecn := 0, drops_nonecn := 100 } 0
      = (22, { drops_ecn := 0, drops_nonecn := 4 }) := by
    unfold testbed_write_drops
    rw [if_neg (by decide)]
    simp [DROPS_M, DROPS_E, int2fl_100]
  have hw2 : testbed_write_drops { drops_ecn := 100, drops_nonecn := 0 } 1
      = (22, { drops_ecn := 4, drops_nonecn := 0 }) := by
    unfold testbed_write_drops
    rw [if_pos (by decide)]
    simp [DROPS_M, DROPS_E, int2fl_100]
  refine ⟨?_, hw, by decide, by norm_num, hw2, by decide⟩
  rw [hw]
  simp [DROPS_M, DROPS_E, int2fl_100]

/-- The drop codeword always fits in 5 bits. -/
lemma testbed_write_drops_fst_lt (t : testbed_metrics) (tos : Nat) :
    (testbed_write_drops t tos).1 < 2 ^ 5 := by
  unfold testbed_write_drops
  split
  · exact int2fl_fst_lt DROPS_M DROPS_E _ (by norm_num [DROPS_E])
  · exact int2fl_fst_lt DROPS_M DROPS_E _ (by norm_num [DROPS_E])

/-- Claim C5: for every 11-bit delay codeword and every accumulator state,
the identification field written by the embedder is exactly
`qdelay + drops * 2^11`; masking its low 11 bits recovers the delay
codeword and shifting right by 11 recovers the drop codeword, the latter
always fitting in 5 bits. -/
theorem add_metrics_ipv4_id_packing (h : iphdr) (t : testbed_metrics) (q : Nat)
    (hq : q < 2 ^ 11) :
    (testbed_add_metrics_ipv4 h t q).1.id = q + (testbed_write_drops t h.tos).1 * 2 ^ 11 ∧
    (testbed_add_metrics_ipv4 h t q).1.id &&& (2 ^ 11 - 1) = q ∧
    (testbed_add_metrics_ipv4 h t q).1.id >>> 11 = (testbed_write_drops t h.tos).1 ∧
    (testbed_write_drops t h.tos).1 < 2 ^ 5 := by
  have hD := testbed_write_drops_fst_lt t h.tos
  have hDmod : (testbed_write_drops t h.tos).1 % 2 ^ 16 = (testbed_write_drops t h.tos).1 :=
    Nat.mod_eq_of_lt (by omega)
  have hor : q ||| (((testbed_write_drops t h.tos).1 % 2 ^ 16) <<< 11)
      = q + (testbed_write_drops t h.tos).1 * 2 ^ 11 := by
    rw [hDmod, Nat.shiftLeft_eq, Nat.lor_comm, mul_comm,
      ← Nat.mul_add_lt_is_or hq, mul_comm]
    omega
  have hid : (testbed_add_metrics_ipv4 h t q).1.id
      = q + (testbed_write_drops t h.tos).1 * 2 ^ 11 := by
    rw [add_metrics_ipv4_id, hor]
    exact Nat.mod_eq_of_lt (by omega)
  refine ⟨hid, ?_, ?_, hD⟩
  · rw [hid, Nat.and_pow_two_sub_one_eq_mod, add_comm, mul_comm, Nat.mul_add_mod]
    exact Nat.mod_eq_of_lt hq
  · rw [hid, Nat.shiftRight_eq_div_pow, add_comm, mul_comm, Nat.mul_add_div (by norm_num),
      Nat.div_eq_of_lt hq, add_zero]

/-- Witness for C5 at a concrete header, accumulator and delay value. -/
theorem add_metrics_ipv4_id_packing_witness :
    (5 : Nat) < 2 ^ 11 ∧
    ((testbed_add_metrics_ipv4 hdr0 testbed_metrics_init 5).1.id
        = 5 + (testbed_write_drops testbed_metrics_init hdr0.tos).1 * 2 ^ 11 ∧
      (testbed_add_metrics_ipv4 hdr0 testbed_metrics_init 5).1.id &&& (2 ^ 11 - 1) = 5 ∧
      (testbed_add_metrics_ipv4 hdr0 testbed_metrics_init 5).1.id >>> 11
        = (testbed_write_drops testbed_metrics_init hdr0.tos).1 ∧
      (testbed_write_drops testbed_metrics_init hdr0.tos).1 < 2 ^ 5) :=
  ⟨by norm_num, add_metrics_ipv4_id_packing hdr0 testbed_metrics_init 5 (by norm_num)⟩

/-- Claim C6: for every value, including values beyond the representable
range, decoding the codeword produced by `int2fl` never exceeds the
original value, for both parameterizations used here. -/
theorem fl2int_int2fl_le (v : Nat) :
    fl2int (int2fl v DROPS_M DROPS_E).1 DROPS_M DROPS_E ≤ v ∧
    fl2int (int2fl v QDELAY_M QDELAY_E).1 QDELAY_M QDELAY_E ≤ v := by
  have h1 := int2fl_fl2int_add DROPS_M DROPS_E v (by norm_num [DROPS_E])
  have h2 := int2fl_fl2int_add QDELAY_M QDELAY_E v (by norm_num [QDELAY_E])
  omega

/-- Claim C10: for the two parameterizations actually used, the exact
reconstruction identity holds for every u32 input, saturating inputs
included: in the saturation branch the remainder is `v - max_fl` and the
all-ones codeword decodes to exactly `max_fl`. -/
theorem int2fl_fl2int_exact_u32 (v : Nat) (hv : v < 2 ^ 32) :
    fl2int (int2fl v DROPS_M DROPS_E).1 DROPS_M DROPS_E + (int2fl v DROPS_M DROPS_E).2 = v ∧
    fl2int (int2fl v QDELAY_M QDELAY_E).1 QDELAY_M QDELAY_E + (int2fl v QDELAY_M QDELAY_E).2 = v :=
  ⟨int2fl_fl2int_add DROPS_M DROPS_E v (by norm_num [DROPS_E]),
   int2fl_fl2int_add QDELAY_M QDELAY_E v (by norm_num [QDELAY_E])⟩

/-- Witness for C10 at a large saturating input. -/
theorem int2fl_fl2int_exact_u32_witness :
    (3000000 : Nat) < 2 ^ 32 ∧
    (fl2int (int2fl 3000000 DROPS_M DROPS_E).1 DROPS_M DROPS_E
        + (int2fl 3000000 DROPS_M DROPS_E).2 = 3000000 ∧
      fl2int (int2fl 3000000 QDELAY_M QDELAY_E).1 QDELAY_M QDELAY_E
        + (int2fl 3000000 QDELAY_M QDELAY_E).2 = 3000000) :=
  ⟨by norm_num, int2fl_fl2int_exact_u32 3000000 (by norm_num)⟩

/-- Claim C8: every value strictly below `2^(m_b+1)` is returned by
`int2fl` as its own codeword with remainder 0; in particular, for the
(2,3) codec, 0 encodes to codeword 0 and 7 to codeword 7, both with
remainder 0. -/
theorem int2fl_direct_range :
    (∀ m e v, v < 2 ^ (m + 1) → int2fl v m e = (v, 0)) ∧
    int2fl 0 DROPS_M DROPS_E = (0, 0) ∧ int2fl 7 DROPS_M DROPS_E = (7, 0) :=
  ⟨fun m e v hv => int2fl_direct m e v hv, by decide, by decide⟩

/-- Witness for C8 at value 5 of the (2,3) codec. -/
theorem int2fl_direct_range_witness :
    (5 : Nat) < 2 ^ (2 + 1) ∧ int2fl 5 2 3 = (5, 0) :=
  ⟨by norm_num, int2fl_direct_range.1 2 3 5 (by norm_num)⟩

/-- Claim C9: `testbed_inc_drop_count` increments exactly one counter —
`drops_nonecn` when the ECN codepoint is Not-ECT, `drops_ecn` otherwise —
leaves the other unchanged, and wraps modulo `2^16` at 65535 instead of
saturating or failing. -/
theorem inc_drop_count_spec (t : testbed_metrics) (ect : Nat) :
    (ect = INET_ECN_NOT_ECT →
      (testbed_inc_drop_count t ect).drops_nonecn = (t.drops_nonecn + 1) % 2 ^ 16 ∧
      (testbed_inc_drop_count t ect).drops_ecn = t.drops_ecn) ∧
    (ect ≠ INET_ECN_NOT_ECT →
      (testbed_inc_drop_count t ect).drops_ecn = (t.drops_ecn + 1) % 2 ^ 16 ∧
      (testbed_inc_drop_count t ect).drops_nonecn = t.drops_nonecn) ∧
    (ect = INET_ECN_NOT_ECT → t.drops_nonecn = 65535 →
      (testbed_inc_drop_count t ect).drops_nonecn = 0) ∧
    (ect ≠ INET_ECN_NOT_ECT → t.drops_ecn = 65535 →
      (testbed_inc_drop_count t ect).drops_ecn = 0) := by
  unfold testbed_inc_drop_count
  by_cases hcase : ect = INET_ECN_NOT_ECT
  · rw [if_pos hcase]
    refine ⟨fun _ => ⟨rfl, rfl⟩, fun hne => absurd hcase hne, fun _ h65 => ?_, fun hne => absurd hcase hne⟩
    rw [h65]
    norm_num
  · rw [if_neg hcase]
    refine ⟨fun heq => absurd heq hcase, fun _ => ⟨rfl, rfl⟩, fun heq => absurd heq hcase,
      fun _ h65 => ?_⟩
    rw [h65]
    norm_num

/-- Witness for C9: wraparound of the non-ECN counter at 65535, with the
ECN counter untouched. -/
theorem inc_drop_count_spec_witness :
    ((0 : Nat) = INET_ECN_NOT_ECT →
      (testbed_inc_drop_count { drops_ecn := 7, drops_nonecn := 65535 } 0).drops_nonecn
        = (65535 + 1) % 2 ^ 16 ∧
      (testbed_inc_drop_count { drops_ecn := 7, drops_nonecn := 65535 } 0).drops_ecn = 7) ∧
    ((0 : Nat) = INET_ECN_NOT_ECT →
      (65535 : Nat) = 65535 →
      (testbed_inc_drop_count { drops_ecn := 7, drops_nonecn := 65535 } 0).drops_nonecn = 0) :=
  ⟨(inc_drop_count_spec { drops_ecn := 7, drops_nonecn := 65535 } 0).1,
   fun h1 _ => (inc_drop_count_spec { drops_ecn := 7, drops_nonecn := 65535 } 0).2.2.1 h1 rfl⟩

/-- Modelled from the spec: an IPv6 packet whose header bytes are present
and writable, used as a dispatch test vector. -/
def skb6 : sk_buff :=
  { protocol := ETH_P_IPV6, network_offset := 0,
    may_pull := fun _ => true, make_writable_fails := fun _ => false, ipv4 := hdr0 }

/-- Claim C7: the dispatch shim leaves the packet and the accumulator
entirely unmodified when the packet is IPv6, when the protocol is neither
IPv4 nor IPv6, or when the IPv4 header bytes cannot be pulled or made
writable; in all cases it returns normally. -/
theorem add_metrics_no_touch (skb : sk_buff) (t : testbed_metrics) (q : Nat)
    (hcase : skb.protocol = ETH_P_IPV6 ∨
      (skb.protocol ≠ ETH_P_IP ∧ skb.protocol ≠ ETH_P_IPV6) ∨
      (skb.protocol = ETH_P_IP ∧
        (skb.may_pull (skb.network_offset + 20) = false ∨
          skb.make_writable_fails (skb.network_offset + 20) = true))) :
    testbed_add_metrics skb t q = (skb, t) := by
  unfold testbed_add_metrics
  rcases hcase with h | ⟨h1, h2⟩ | ⟨h1, h2⟩
  · rw [if_neg (by rw [h]; decide), if_pos h]
  · rw [if_neg h1, if_neg h2]
  · rw [if_pos h1, if_pos ?_]
    rcases h2 with h2 | h2
    · exact Or.inl (by simp [h2])
    · exact Or.inr (by simp [h2])

/-- Witness for C7 on a concrete IPv6 packet. -/
theorem add_metrics_no_touch_witness :
    skb6.protocol = ETH_P_IPV6 ∧
    testbed_add_metrics skb6 testbed_metrics_init 3 = (skb6, testbed_metrics_init) :=
  ⟨rfl, add_metrics_no_touch skb6 testbed_metrics_init 3 (Or.inl rfl)⟩

end Testbed
